import Mathlib

/-!
# Verification of the matchy database against its specification

Shallow embedding of the matchy lookup database: the glob pattern engine and
its C++ wrapper (`src/cpp/matchy.cpp`, `src/cpp/paraglob.cpp`), the varargs
path glue (`src/c_api/mmdb_varargs.c`), the MMDB-style typed value codec, the
binary trie walker, and the path-navigation operation.  The core engine
(codec, trie, builder, automaton) ships as a separate compiled crate whose
sources are not in this repository; those parts are modelled from the
specification and are marked as such in their doc comments.

C++ `std::string` values are embedded as `List Char` (byte strings compared
lexicographically); `std::sort` is embedded as `List.insertionSort` with the
corresponding comparator, and `std::unique` as adjacent-duplicate removal.
-/

namespace Matchy

/-- Byte-string order of C++ `std::string`: lexicographic `operator<`. -/
def strLt : List Char → List Char → Bool
  | [], [] => false
  | [], _ :: _ => true
  | _ :: _, [] => false
  | a :: as, b :: bs => a < b || (a = b && strLt as bs)

/-- Non-strict counterpart used as the sorting relation (`!(b < a)`). -/
def strLe (a b : List Char) : Bool := !strLt b a

/-! ## Glob pattern matching (§4.4)

Modelled from the spec: the glob matcher lives in the compiled core crate,
absent from this repository.  Grammar per §4.4: `*` matches any run of 0+
bytes, `?` exactly one byte, `[...]` a bracket class with optional leading
`!` negation and `-` ranges, `\` escapes the wildcard characters, and any
other byte matches itself. -/

/-- One bracket-class item: a closed range of characters (a singleton is
encoded as a range from the character to itself). -/
def classItemMatches (item : Char × Char) (c : Char) : Bool :=
  item.1 ≤ c && c ≤ item.2

/-- Parse a bracket class body (after `[` and after the optional `!`),
returning the range items and the remaining pattern after `]`. -/
def parseClassItems : List Char → Option (List (Char × Char) × List Char)
  | [] => none
  | ']' :: rest => some ([], rest)
  | a :: '-' :: b :: rest =>
    if b = ']' then
      -- trailing `-` is a literal member; `]` closes the class
      some ([(a, a), ('-', '-')], rest)
    else
      match parseClassItems rest with
      | some (items, rest') => some ((a, b) :: items, rest')
      | none => none
  | a :: rest =>
    match parseClassItems rest with
    | some (items, rest') => some ((a, a) :: items, rest')
    | none => none

/-- Parse a full bracket class starting right after `[`: an optional `!`
negation flag, then the items.  Returns (negated, items, rest). -/
def parseClass (ps : List Char) : Option (Bool × List (Char × Char) × List Char) :=
  match ps with
  | '!' :: rest =>
    match parseClassItems rest with
    | some (items, rest') => some (true, items, rest')
    | none => none
  | _ =>
    match parseClassItems ps with
    | some (items, rest') => some (false, items, rest')
    | none => none

/-- Modelled from the spec: fuel-driven glob matcher implementing the §4.4
grammar.  The fuel only guarantees termination; `globMatch` supplies enough
for any input. -/
def globGo : Nat → List Char → List Char → Bool
  | 0, _, _ => false
  | _ + 1, [], s => s.isEmpty
  | fuel + 1, '*' :: ps, s =>
    globGo fuel ps s ||
      (match s with
       | [] => false
       | _ :: s' => globGo fuel ('*' :: ps) s')
  | fuel + 1, '?' :: ps, s =>
    match s with
    | [] => false
    | _ :: s' => globGo fuel ps s'
  | fuel + 1, '\\' :: c :: ps, s =>
    match s with
    | [] => false
    | c' :: s' => c' = c && globGo fuel ps s'
  | fuel + 1, '[' :: ps, s =>
    match parseClass ps with
    | some (neg, items, rest) =>
      match s with
      | [] => false
      | c :: s' =>
        (neg != items.any (fun it => classItemMatches it c)) && globGo fuel rest s'
    | none =>
      -- unterminated class: `[` is treated as a literal byte
      match s with
      | [] => false
      | c :: s' => c = '[' && globGo fuel ps s'
  | fuel + 1, p :: ps, s =>
    match s with
    | [] => false
    | c :: s' => c = p && globGo fuel ps s'

/-- Modelled from the spec: does glob pattern `p` match text `t` (§4.4)? -/
def globMatch (p t : List Char) : Bool :=
  globGo (p.length + t.length + 1) p t

/-! ## The C++ wrapper `Paraglob::get` (src/cpp/matchy.cpp lines 211-254)

`matchy_query` is implemented by the absent core crate; modelled from the
spec (§4.4 query): the query reports `found` exactly when some stored
pattern glob-matches the text. -/

/-- Modelled from the spec: `matchy_query(db, text).found` — true iff some
pattern stored in the database matches the text (§4.4). -/
def matchyQueryFound (patterns : List (List Char)) (text : List Char) : Bool :=
  patterns.any (fun p => globMatch p text)

/-- Helper for `dedupAdjacent`: drop elements equal to the previous kept one. -/
def dedupGo {α : Type} [DecidableEq α] : α → List α → List α
  | _, [] => []
  | prev, b :: rest => if prev = b then dedupGo prev rest else b :: dedupGo b rest

/-- `std::unique` on a vector: drop adjacent duplicates, keeping the first of
each run. -/
def dedupAdjacent {α : Type} [DecidableEq α] : List α → List α
  | [] => []
  | a :: rest => a :: dedupGo a rest

/-- Embedding of `paraglob::Paraglob::get` from src/cpp/matchy.cpp lines
211-254, in the build-mode state (`patterns_` non-empty): a single
`matchy_query` on the text; when it reports found, `matched_patterns` is
assigned the whole of `patterns_`; the vector is then sorted and
deduplicated. -/
def matchyCppGet (patterns : List (List Char)) (text : List Char) : List (List Char) :=
  let matched := if matchyQueryFound patterns text then patterns else []
  dedupAdjacent (matched.insertionSort (fun a b => strLe a b = true))

/-! ## Pattern-id assignment and `get_with_ids`
(src/cpp/paraglob.cpp lines 191-235) -/

/-- Embedding of `Paraglob::get_all_patterns_with_ids` (src/cpp/paraglob.cpp
lines 225-235): sort a copy of `patterns_` lexicographically and pair each
pattern with its position as its id. -/
def get_all_patterns_with_ids (patterns : List (List Char)) : List (Nat × List Char) :=
  (patterns.insertionSort (fun a b => strLe a b = true)).enum

/-- The inner lookup loop of `get_with_ids` (src/cpp/paraglob.cpp lines
204-212): scan the id-to-pattern list for the first entry whose id equals
the queried id. -/
def lookupPattern (aps : List (Nat × List Char)) (id : Nat) : Option (List Char) :=
  match aps.find? (fun pr => pr.1 == id) with
  | some pr => some pr.2
  | none => none

/-- The result-accumulation loop of `get_with_ids`: for each id returned by
the core's `paraglob_find_all`, push `(id, pattern)` when the id resolves. -/
def collectIdMatches (aps : List (Nat × List Char)) (ids : List Nat) :
    List (Nat × List Char) :=
  ids.filterMap (fun id => (lookupPattern aps id).map (fun p => (id, p)))

/-- Embedding of `Paraglob::get_with_ids` (src/cpp/paraglob.cpp lines
191-223): map the ids from `paraglob_find_all` to `(id, pattern)` pairs,
`std::sort` by id, then `std::unique`.  `ids` stands for the id array the
core returned for the queried text. -/
def get_with_ids (patterns : List (List Char)) (ids : List Nat) :
    List (Nat × List Char) :=
  dedupAdjacent
    ((collectIdMatches (get_all_patterns_with_ids patterns) ids).insertionSort
      (fun a b => a.1 ≤ b.1))

/-- Modelled from the spec (§4.4 sealing): the sealed file's pattern section
stores the pattern list sorted, with `pattern_id` = position. -/
def sealPatternList (patterns : List (List Char)) : List (List Char) :=
  patterns.insertionSort (fun a b => strLe a b = true)

/-- Modelled from the spec (§4.4 sealing): opening restores the pattern list
by structural mapping; compilation is not repeated. -/
def openPatternList (sealed : List (List Char)) : List (List Char) :=
  sealed

/-- The id assignment visible after an open/close cycle: position-indexed
entries of the restored pattern list. -/
def assignmentAfterOpen (sealed : List (List Char)) : List (Nat × List Char) :=
  (openPatternList sealed).enum

/-! ## Binary trie store (§4.2)

Modelled from the spec: the trie walker and builder live in the compiled
core crate, absent from this repository.  A trie slot is one of
{SearchNode, Empty, Data(offset)}; nodes hold a left and a right slot.  The
tree form below writes a SearchNode together with its two child slots as
`node l r`. -/

/-- A trie subtree: an `Empty` record, a `Data` record carrying a
data-section offset, or a search node with left/right children (§3 Record). -/
inductive PTrie where
  | empty : PTrie
  | data : Nat → PTrie
  | node : PTrie → PTrie → PTrie
deriving DecidableEq

/-- Outcome of a trie walk: `found prefix_len offset`, or `notfound depth`
(§4.2 walk algorithm). -/
inductive WalkResult where
  | found : Nat → Nat → WalkResult
  | notfound : Nat → WalkResult
deriving DecidableEq

/-- Modelled from the spec (§4.2 walk algorithm): consume key bits MSB
first; a `Data` record reports found at the current depth (the first `Data`
wins, deeper bits are not consulted); an `Empty` record reports not-found at
the current depth, with no fallback to an ancestor. -/
def walkTrie : PTrie → List Bool → Nat → WalkResult
  | .empty, _, d => .notfound d
  | .data o, _, d => .found d o
  | .node _ _, [], d => .notfound d
  | .node l r, b :: bs, d => walkTrie (if b then r else l) bs (d + 1)

/-- Modelled from the spec (§4.2 build): insert one key; at the key's
terminal bit the record is set to `Data(offset)`.  Passing a `Data` record
on the way down splits it, replicating the ancestor's data into the sibling
subtree so covered addresses keep matching the ancestor. -/
def insertTrie : PTrie → List Bool → Nat → PTrie
  | _, [], o => .data o
  | .empty, b :: bs, o =>
    if b then .node .empty (insertTrie .empty bs o)
    else .node (insertTrie .empty bs o) .empty
  | .data d0, b :: bs, o =>
    if b then .node (.data d0) (insertTrie (.data d0) bs o)
    else .node (insertTrie (.data d0) bs o) (.data d0)
  | .node l r, b :: bs, o =>
    if b then .node l (insertTrie r bs o)
    else .node (insertTrie l bs o) r

/-- Modelled from the spec (§4.6): the builder inserts the sorted entries one
at a time, shortest (least specific) prefix first. -/
def buildTrie (entries : List (List Bool × Nat)) : PTrie :=
  entries.foldl (fun t e => insertTrie t e.1 e.2) .empty

/-- `p` is a strict bit-string prefix of `q` (a nested, more specific
network). -/
def strictPrefix (p q : List Bool) : Bool :=
  p.isPrefixOf q && decide (p.length < q.length)

/-- Helper for `prefixChainB`. -/
def prefixChainGo : List Bool → List (List Bool) → Bool
  | _, [] => true
  | p, q :: rest => strictPrefix p q && prefixChainGo q rest

/-- `p1 ⊂ p2 ⊂ … ⊂ pn`: each prefix is strictly nested in the next. -/
def prefixChainB : List (List Bool) → Bool
  | [] => true
  | p :: rest => prefixChainGo p rest

/-! ## Paraglob lifecycle state and `serialize_binary`
(src/cpp/matchy.cpp lines 319-327, src/cpp/paraglob.cpp lines 254-262) -/

/-- The observable lifecycle state of a `paraglob::Paraglob` object:
`is_compiled_`, whether `db_` is non-null, and whether `temp_file_` is
non-empty. -/
structure ParaglobState where
  is_compiled : Bool
  has_db : Bool
  has_temp_file : Bool
deriving DecidableEq

/-- Embedding of `Paraglob::serialize_binary` (src/cpp/matchy.cpp lines
319-327): uncompiled or db-less objects throw "Cannot serialize uncompiled
Paraglob"; every other state throws the not-yet-implemented error.  A
`.error` value models a thrown `std::runtime_error`. -/
def serialize_binary (s : ParaglobState) : Except String (List Nat) :=
  if !s.is_compiled || !s.has_db then
    .error "Cannot serialize uncompiled Paraglob"
  else
    .error "serialize_binary() not yet implemented - use save_to_file_binary() instead"

/-- Embedding of `Paraglob::serialize` (src/cpp/matchy.cpp lines 296-298):
delegates to `serialize_binary`. -/
def serialize (s : ParaglobState) : Except String (List Nat) :=
  serialize_binary s

/-- Embedding of `Paraglob::save_to_file_binary` (src/cpp/matchy.cpp lines
300-317): false when uncompiled or db-less; otherwise the temp file, when
present, is copied to the destination (file I/O modelled as succeeding). -/
def save_to_file_binary (s : ParaglobState) : Bool :=
  if !s.is_compiled || !s.has_db then false else s.has_temp_file

/-! ## Varargs path glue (src/c_api/mmdb_varargs.c) -/

/-- `MAX_PATH_DEPTH` from src/c_api/mmdb_varargs.c line 13. -/
def MAX_PATH_DEPTH : Nat := 32

/-- The collection loop of `MMDB_get_value`/`MMDB_vget_value`: read varargs
until the caller's NULL terminator (end of `args`) or until `fuel` slots are
used. -/
def collectVarargs : Nat → List (List Char) → List (List Char)
  | 0, _ => []
  | _ + 1, [] => []
  | fuel + 1, a :: rest => a :: collectVarargs fuel rest

/-- Embedding of `MMDB_get_value` (src/c_api/mmdb_varargs.c lines 19-40):
collect at most `MAX_PATH_DEPTH` varargs components and call the array
version on them.  `aget` stands for `MMDB_aget_value` applied to the fixed
entry and output arguments; `args` is the varargs sequence up to the
caller's NULL terminator. -/
def MMDB_get_value {α : Type} (aget : List (List Char) → α) (args : List (List Char)) : α :=
  aget (collectVarargs MAX_PATH_DEPTH args)

/-- Embedding of `MMDB_vget_value` (src/c_api/mmdb_varargs.c lines 46-68):
identical collection loop over a copy of the `va_list`. -/
def MMDB_vget_value {α : Type} (aget : List (List Char) → α) (args : List (List Char)) : α :=
  aget (collectVarargs MAX_PATH_DEPTH args)

/-! ## Typed value codec (§4.1)

Modelled from the spec: the codec lives in the compiled core crate, absent
from this repository.  A value is a control byte (`type_code` in the high 3
bits, `size_code` in the low 5), an optional extended-type byte (actual type
= byte + 7 when `type_code` is 0), a variable-length size field, and the
payload.  `Pointer` values are an internal indirection the single-entry
builder modelled here never emits, so the decoder rejects a pointer tag and
the `Value` sum carries the caller-visible variants only (§3: pointers must
never appear in decoded output). -/

/-- The caller-visible tagged value tree (§3 Value).  `double` and `float`
carry their IEEE-754 big-endian bit patterns as naturals; strings and bytes
are raw byte lists; integers carry their numeric value. -/
inductive Value where
  | utf8String : List Nat → Value
  | double : Nat → Value
  | bytes : List Nat → Value
  | uint16 : Nat → Value
  | uint32 : Nat → Value
  | map : List (List Nat × Value) → Value
  | int32 : Nat → Value
  | uint64 : Nat → Value
  | uint128 : Nat → Value
  | array : List Value → Value
  | boolean : Bool → Value
  | float : Nat → Value

/-- The largest size the §4.1 size field can carry:
`65821 + (2^24 - 1)`. -/
def maxEncodableSize : Nat := 65821 + (2 ^ 24 - 1)

/-- Big-endian byte rendering of `v`, `n` bytes wide (left-truncated). -/
def natToBeBytes : Nat → Nat → List Nat
  | 0, _ => []
  | n + 1, v => natToBeBytes n (v / 256) ++ [v % 256]

/-- Minimal big-endian byte length of an integer value (≤ 16 bytes, enough
for `Uint128`). -/
def byteLenGo : Nat → Nat → Nat
  | 0, _ => 0
  | fuel + 1, v => if v = 0 then 0 else byteLenGo fuel (v / 256) + 1

/-- Minimal byte length used when left-truncating integer payloads (§6:
value integers are big-endian and left-truncated to their declared size). -/
def byteLen (v : Nat) : Nat := byteLenGo 16 v

/-- Encode the §4.1 size field: the size code (low 5 bits of the control
byte) plus the extra size bytes. -/
def encodeSizeField (s : Nat) : Nat × List Nat :=
  if s ≤ 28 then (s, [])
  else if s ≤ 284 then (29, [s - 29])
  else if s ≤ 65820 then (30, [(s - 285) / 256, (s - 285) % 256])
  else (31, [(s - 65821) / 65536, ((s - 65821) / 256) % 256, (s - 65821) % 256])

/-- Encode a control byte for actual type `t` and size `s`: small types go
in the high 3 bits; types 8 and above use the extended form (`type_code` 0
plus one byte holding `t - 7`). -/
def encodeCtrl (t s : Nat) : List Nat :=
  let cs := encodeSizeField s
  if t ≤ 7 then (t * 32 + cs.1) :: cs.2
  else (0 * 32 + cs.1) :: (t - 7) :: cs.2

/-- Number of pairs in a map literal, number of elements in an array. -/
def listSize {α : Type} (l : List α) : Nat := l.length

mutual

/-- Modelled from the spec (§4.1): the builder-side encoder laying a value
out as control byte, extended-type byte, size field, payload.  Type codes:
2=Utf8String, 3=Double (8 B), 4=Bytes, 5=Uint16, 6=Uint32, 7=Map (size =
pair count), 8=Int32 (4 B), 9=Uint64, 10=Uint128, 11=Array (size = element
count), 14=Boolean (size code 0/1), 15=Float (4 B). -/
def encodeValue : Value → List Nat
  | .utf8String s => encodeCtrl 2 s.length ++ s
  | .double v => encodeCtrl 3 8 ++ natToBeBytes 8 v
  | .bytes s => encodeCtrl 4 s.length ++ s
  | .uint16 v => encodeCtrl 5 (byteLen v) ++ natToBeBytes (byteLen v) v
  | .uint32 v => encodeCtrl 6 (byteLen v) ++ natToBeBytes (byteLen v) v
  | .map pairs => encodeCtrl 7 (listSize pairs) ++ encodePairs pairs
  | .int32 v => encodeCtrl 8 4 ++ natToBeBytes 4 v
  | .uint64 v => encodeCtrl 9 (byteLen v) ++ natToBeBytes (byteLen v) v
  | .uint128 v => encodeCtrl 10 (byteLen v) ++ natToBeBytes (byteLen v) v
  | .array xs => encodeCtrl 11 (listSize xs) ++ encodeElems xs
  | .boolean b => encodeCtrl 14 (if b then 1 else 0)
  | .float v => encodeCtrl 15 4 ++ natToBeBytes 4 v

/-- Map body: each pair is the key encoded as a Utf8String value followed by
the value. -/
def encodePairs : List (List Nat × Value) → List Nat
  | [] => []
  | (k, v) :: rest => encodeCtrl 2 k.length ++ k ++ encodeValue v ++ encodePairs rest

/-- Array body: the encoded elements, concatenated. -/
def encodeElems : List Value → List Nat
  | [] => []
  | v :: rest => encodeValue v ++ encodeElems rest

end

/-- Accumulating big-endian read of `n` bytes. -/
def readBEAcc : Nat → Nat → List Nat → Option (Nat × List Nat)
  | acc, 0, rest => some (acc, rest)
  | _, _ + 1, [] => none
  | acc, n + 1, b :: rest => readBEAcc (acc * 256 + b) n rest

/-- Modelled from the spec (§4.1): read the actual type code.  The high 3
bits of the control byte hold `type_code`; when they are 0 (extended), one
following byte + 7 gives the actual code. -/
def readTypeCode (c : Nat) (bytes : List Nat) : Option (Nat × List Nat) :=
  let tc := c >>> 5
  if tc = 0 then
    match bytes with
    | b :: rest => some (b + 7, rest)
    | [] => none
  else some (tc, bytes)

/-- Modelled from the spec (§4.1): decode the size field from the size code.
0..28 is the size itself; 29 adds one extra byte; 30 adds a big-endian u16
to 285; 31 adds a big-endian u24 to 65821. -/
def readSizeField (sc : Nat) (bytes : List Nat) : Option (Nat × List Nat) :=
  if sc ≤ 28 then some (sc, bytes)
  else if sc = 29 then
    match readBEAcc 0 1 bytes with
    | some (v, rest) => some (29 + v, rest)
    | none => none
  else if sc = 30 then
    match readBEAcc 0 2 bytes with
    | some (v, rest) => some (285 + v, rest)
    | none => none
  else
    match readBEAcc 0 3 bytes with
    | some (v, rest) => some (65821 + v, rest)
    | none => none

/-- Read one full value header: control byte, extended type byte, size
field.  The size code is the low 5 bits of the control byte. -/
def readCtrl (bytes : List Nat) : Option (Nat × Nat × List Nat) :=
  match bytes with
  | [] => none
  | c :: rest =>
    match readTypeCode c rest with
    | some (t, rest1) =>
      match readSizeField (c &&& 31) rest1 with
      | some (s, rest2) => some (t, s, rest2)
      | none => none
    | none => none

/-- Take exactly `n` payload bytes, failing on section overflow. -/
def takeBytes (n : Nat) (bytes : List Nat) : Option (List Nat × List Nat) :=
  if n ≤ bytes.length then some (bytes.take n, bytes.drop n) else none

mutual

/-- Modelled from the spec (§4.1 decoder contract): `read_value` over the
byte stream.  The fuel bounds nesting work (the §4.1 decoder bounds its work
by the data-section size); a pointer tag (type 1) is rejected here because
the modelled single-entry builder never emits one. -/
def decodeValue : Nat → List Nat → Option (Value × List Nat)
  | 0, _ => none
  | fuel + 1, bytes =>
    match readCtrl bytes with
    | none => none
    | some (t, s, rest) =>
      if t = 2 then
        match takeBytes s rest with
        | some (bs, r) => some (.utf8String bs, r)
        | none => none
      else if t = 3 then
        if s = 8 then
          match readBEAcc 0 8 rest with
          | some (v, r) => some (.double v, r)
          | none => none
        else none
      else if t = 4 then
        match takeBytes s rest with
        | some (bs, r) => some (.bytes bs, r)
        | none => none
      else if t = 5 then
        if s ≤ 2 then
          match readBEAcc 0 s rest with
          | some (v, r) => some (.uint16 v, r)
          | none => none
        else none
      else if t = 6 then
        if s ≤ 4 then
          match readBEAcc 0 s rest with
          | some (v, r) => some (.uint32 v, r)
          | none => none
        else none
      else if t = 7 then
        match decodePairs fuel s rest with
        | some (pairs, r) => some (.map pairs, r)
        | none => none
      else if t = 8 then
        if s = 4 then
          match readBEAcc 0 4 rest with
          | some (v, r) => some (.int32 v, r)
          | none => none
        else none
      else if t = 9 then
        if s ≤ 8 then
          match readBEAcc 0 s rest with
          | some (v, r) => some (.uint64 v, r)
          | none => none
        else none
      else if t = 10 then
        if s ≤ 16 then
          match readBEAcc 0 s rest with
          | some (v, r) => some (.uint128 v, r)
          | none => none
        else none
      else if t = 11 then
        match decodeElems fuel s rest with
        | some (xs, r) => some (.array xs, r)
        | none => none
      else if t = 14 then
        if s ≤ 1 then some (.boolean (s == 1), rest) else none
      else if t = 15 then
        if s = 4 then
          match readBEAcc 0 4 rest with
          | some (v, r) => some (.float v, r)
          | none => none
        else none
      else none
termination_by fuel _ => (fuel, 0)

/-- Read `n` map pairs: each key must decode to a Utf8String value. -/
def decodePairs : Nat → Nat → List Nat → Option (List (List Nat × Value) × List Nat)
  | _, 0, bytes => some ([], bytes)
  | fuel, n + 1, bytes =>
    match decodeValue fuel bytes with
    | some (.utf8String k, rest1) =>
      match decodeValue fuel rest1 with
      | some (v, rest2) =>
        match decodePairs fuel n rest2 with
        | some (pairs, rest3) => some ((k, v) :: pairs, rest3)
        | none => none
      | none => none
    | _ => none
termination_by fuel n _ => (fuel, n + 1)

/-- Read `n` array elements. -/
def decodeElems : Nat → Nat → List Nat → Option (List Value × List Nat)
  | _, 0, bytes => some ([], bytes)
  | fuel, n + 1, bytes =>
    match decodeValue fuel bytes with
    | some (v, rest1) =>
      match decodeElems fuel n rest1 with
      | some (xs, rest2) => some (v :: xs, rest2)
      | none => none
    | none => none
termination_by fuel n _ => (fuel, n + 1)

end

mutual

/-- Fuel sufficient for `decodeValue` on this value: one step per nesting
level. -/
def valueFuel : Value → Nat
  | .map pairs => pairsFuel pairs + 1
  | .array xs => elemsFuel xs + 1
  | _ => 1

/-- Fuel sufficient for `decodePairs` on this pair list. -/
def pairsFuel : List (List Nat × Value) → Nat
  | [] => 0
  | (_, v) :: rest => max (max (valueFuel v) (pairsFuel rest)) 1

/-- Fuel sufficient for `decodeElems` on this element list. -/
def elemsFuel : List Value → Nat
  | [] => 0
  | v :: rest => max (valueFuel v) (elemsFuel rest)

end

mutual

/-- Well-formedness of a value the builder may encode: strings and bytes
are byte lists whose length fits the size field; integer payloads fit their
width; map and array sizes fit the size field. -/
def wfValue : Value → Bool
  | .utf8String s => decide (s.length ≤ maxEncodableSize) && s.all (fun b => b < 256)
  | .double v => decide (v < 2 ^ 64)
  | .bytes s => decide (s.length ≤ maxEncodableSize) && s.all (fun b => b < 256)
  | .uint16 v => decide (v < 2 ^ 16)
  | .uint32 v => decide (v < 2 ^ 32)
  | .map pairs => decide (listSize pairs ≤ maxEncodableSize) && wfPairs pairs
  | .int32 v => decide (v < 2 ^ 32)
  | .uint64 v => decide (v < 2 ^ 64)
  | .uint128 v => decide (v < 2 ^ 128)
  | .array xs => decide (listSize xs ≤ maxEncodableSize) && wfElems xs
  | .boolean _ => true
  | .float v => decide (v < 2 ^ 32)

/-- Well-formedness of map pairs: keys are in-range byte strings. -/
def wfPairs : List (List Nat × Value) → Bool
  | [] => true
  | (k, v) :: rest =>
    decide (k.length ≤ maxEncodableSize) && k.all (fun b => b < 256) &&
      wfValue v && wfPairs rest

/-- Well-formedness of array elements. -/
def wfElems : List Value → Bool
  | [] => true
  | v :: rest => wfValue v && wfElems rest

end

/-! ## JSON payload model (§4.6)

Modelled from the spec: JSON payloads are parsed into the abstract value
model; every numeric literal defaults to Double (§4.6, §9).  `Json.num`
carries the IEEE-754 bit pattern of the double the parser produced, so the
numeric policy is the identity at this level. -/

/-- Abstract well-formed JSON values. -/
inductive Json where
  | str : List Nat → Json
  | num : Nat → Json
  | bool : Bool → Json
  | arr : List Json → Json
  | obj : List (List Nat × Json) → Json

mutual

/-- Modelled from the spec (§4.6 payload normalization): JSON text parsed
into the abstract Value model, numbers defaulting to Double. -/
def jsonToValue : Json → Value
  | .str s => .utf8String s
  | .num bits => .double bits
  | .bool b => .boolean b
  | .arr xs => .array (jsonListToValues xs)
  | .obj pairs => .map (jsonObjToPairs pairs)

/-- Element-wise payload normalization for arrays. -/
def jsonListToValues : List Json → List Value
  | [] => []
  | j :: rest => jsonToValue j :: jsonListToValues rest

/-- Pair-wise payload normalization for objects. -/
def jsonObjToPairs : List (List Nat × Json) → List (List Nat × Value)
  | [] => []
  | (k, j) :: rest => (k, jsonToValue j) :: jsonObjToPairs rest

end

mutual

/-- Modelled from the spec (§4.7 `to_json`): serialize a decoded value back
to JSON; non-JSON variants have no JSON rendering here. -/
def valueToJson : Value → Option Json
  | .utf8String s => some (.str s)
  | .double v => some (.num v)
  | .boolean b => some (.bool b)
  | .array xs => (valuesToJsons xs).map .arr
  | .map pairs => (pairsToJsons pairs).map .obj
  | _ => none

/-- Element-wise serialization for arrays. -/
def valuesToJsons : List Value → Option (List Json)
  | [] => some []
  | v :: rest =>
    match valueToJson v, valuesToJsons rest with
    | some j, some js => some (j :: js)
    | _, _ => none

/-- Pair-wise serialization for objects. -/
def pairsToJsons : List (List Nat × Value) → Option (List (List Nat × Json))
  | [] => some []
  | (k, v) :: rest =>
    match valueToJson v, pairsToJsons rest with
    | some j, some js => some ((k, j) :: js)
    | _, _ => none

end

mutual

/-- Well-formed JSON payloads: byte-string keys and strings fit the size
field, numbers are 64-bit double patterns, containers fit the size field. -/
def wfJson : Json → Bool
  | .str s => decide (s.length ≤ maxEncodableSize) && s.all (fun b => b < 256)
  | .num v => decide (v < 2 ^ 64)
  | .bool _ => true
  | .arr xs => decide (listSize xs ≤ maxEncodableSize) && wfJsonList xs
  | .obj pairs => decide (listSize pairs ≤ maxEncodableSize) && wfJsonObj pairs

/-- Well-formedness of a JSON array body. -/
def wfJsonList : List Json → Bool
  | [] => true
  | j :: rest => wfJson j && wfJsonList rest

/-- Well-formedness of a JSON object body. -/
def wfJsonObj : List (List Nat × Json) → Bool
  | [] => true
  | (k, j) :: rest =>
    decide (k.length ≤ maxEncodableSize) && k.all (fun b => b < 256) &&
      wfJson j && wfJsonObj rest

end

/-! ## Single-entry build / open / query / to_json pipeline (§8 round-trip) -/

/-- Modelled from the spec (§4.6, §4.5): the database built from the single
pair {K → P}: a trie with one terminal `Data 0` record, and a data section
holding the one encoded payload at offset 0. -/
structure SingleDB where
  trie : PTrie
  dataSection : List Nat

/-- Build a database from the single pair {K → P}. -/
def buildSingle (keyBits : List Bool) (P : Json) : SingleDB :=
  { trie := insertTrie .empty keyBits 0
    dataSection := encodeValue (jsonToValue P) }

/-- Open the single-entry database, query K, and serialize the result with
`to_json` (§4.7): walk the trie on the key bits, decode the payload at the
returned data-section offset, serialize it. -/
def querySingleToJson (keyBits : List Bool) (P : Json) : Option Json :=
  let db := buildSingle keyBits P
  match walkTrie db.trie keyBits 0 with
  | .found _ o =>
    match decodeValue db.dataSection.length (db.dataSection.drop o) with
    | some (v, _) => valueToJson v
    | none => none
  | .notfound _ => none

/-! ## Path navigation (§4.1 `navigate`)

Modelled from the spec: `navigate` lives in the compiled core crate, absent
from this repository.  The path is a sequence of string keys or
numeric-string indices; at each step the current value must be a Map (key
lookup) or an Array (index parse).  Missing keys and bad indices yield
`LOOKUP_PATH_INVALID`; a non-container in mid-path yields
`LOOKUP_PATH_DOES_NOT_MATCH_DATA` (§6 status codes 8 and 9). -/

/-- Status code 8 (src/include/matchy/maxminddb.h line 81). -/
def MMDB_INVALID_LOOKUP_PATH_ERROR : Nat := 8

/-- Status code 9 (src/include/matchy/maxminddb.h line 82). -/
def MMDB_LOOKUP_PATH_DOES_NOT_MATCH_DATA_ERROR : Nat := 9

/-- Digit-run accumulator for numeric-string array indices. -/
def parseIndexGo : Nat → List Nat → Option Nat
  | acc, [] => some acc
  | acc, c :: rest =>
    if 48 ≤ c && c ≤ 57 then parseIndexGo (acc * 10 + (c - 48)) rest else none

/-- Parse a path component as a decimal array index (ASCII digits). -/
def parseIndex : List Nat → Option Nat
  | [] => none
  | c :: rest => parseIndexGo 0 (c :: rest)

/-- Map key lookup: first pair with the matching key. -/
def lookupKey (pairs : List (List Nat × Value)) (k : List Nat) : Option Value :=
  (pairs.find? (fun pr => pr.1 == k)).map Prod.snd

/-- Modelled from the spec (§4.1 `navigate`): walk the decoded value along
the path. -/
def navigate : Value → List (List Nat) → Except Nat Value
  | v, [] => .ok v
  | .map pairs, k :: rest =>
    match lookupKey pairs k with
    | some v' => navigate v' rest
    | none => .error MMDB_INVALID_LOOKUP_PATH_ERROR
  | .array xs, k :: rest =>
    match parseIndex k with
    | some i =>
      match xs[i]? with
      | some v' => navigate v' rest
      | none => .error MMDB_INVALID_LOOKUP_PATH_ERROR
    | none => .error MMDB_INVALID_LOOKUP_PATH_ERROR
  | _, _ :: _ => .error MMDB_LOOKUP_PATH_DOES_NOT_MATCH_DATA_ERROR

/-- The C-API view of `navigate` as `matchy_aget_value` produces it: a
status code and the optional entry data (`has_data` is its `isSome`). -/
def aget_value (v : Value) (path : List (List Nat)) : Nat × Option Value :=
  match navigate v path with
  | .ok w => (0, some w)
  | .error e => (e, none)

/-- Is this value neither a Map nor an Array (a navigation type mismatch
when path components remain)? -/
def notContainer : Value → Bool
  | .map _ => false
  | .array _ => false
  | _ => true

end Matchy

/-! # Supporting theorems -/

namespace Matchy

/-- `strLt` is asymmetric. -/
theorem strLt_asymm : ∀ a b : List Char, strLt a b = true → strLt b a = false := by
  intro a
  induction a with
  | nil =>
    intro b h
    cases b with
    | nil => exact absurd h (by simp [strLt])
    | cons y ys => rfl
  | cons x xs ih =>
    intro b h
    cases b with
    | nil => exact absurd h (by simp [strLt])
    | cons y ys =>
      simp only [strLt, Bool.or_eq_true, Bool.and_eq_true, decide_eq_true_eq] at h ⊢
      simp only [Bool.or_eq_false_iff, Bool.and_eq_false_iff, decide_eq_false_iff_not]
      rcases h with hlt | ⟨heq, hrest⟩
      · exact ⟨not_lt_of_gt hlt, Or.inl (ne_of_gt hlt)⟩
      · subst heq
        exact ⟨lt_irrefl x, Or.inr (ih ys hrest)⟩

/-- `strLt` is transitive. -/
theorem strLt_trans :
    ∀ a b c : List Char, strLt a b = true → strLt b c = true → strLt a c = true := by
  intro a
  induction a with
  | nil =>
    intro b c hab hbc
    cases b with
    | nil => exact absurd hab (by simp [strLt])
    | cons y ys =>
      cases c with
      | nil => exact absurd hbc (by simp [strLt])
      | cons z zs => simp [strLt]
  | cons x xs ih =>
    intro b c hab hbc
    cases b with
    | nil => exact absurd hab (by simp [strLt])
    | cons y ys =>
      cases c with
      | nil => exact absurd hbc (by simp [strLt])
      | cons z zs =>
        simp only [strLt, Bool.or_eq_true, Bool.and_eq_true, decide_eq_true_eq] at hab hbc ⊢
        rcases hab with hxy | ⟨hxy, hxyr⟩ <;> rcases hbc with hyz | ⟨hyz, hyzr⟩
        · exact Or.inl (lt_trans hxy hyz)
        · subst hyz; exact Or.inl hxy
        · subst hxy; exact Or.inl hyz
        · subst hxy; subst hyz; exact Or.inr ⟨rfl, ih ys zs hxyr hyzr⟩

/-- `strLt` is connected: mutually non-less lists are equal. -/
theorem strLt_conn :
    ∀ a b : List Char, strLt a b = false → strLt b a = false → a = b := by
  intro a
  induction a with
  | nil =>
    intro b hab _
    cases b with
    | nil => rfl
    | cons y ys => exact absurd hab (by simp [strLt])
  | cons x xs ih =>
    intro b hab hba
    cases b with
    | nil => exact absurd hba (by simp [strLt])
    | cons y ys =>
      simp only [strLt, Bool.or_eq_false_iff, Bool.and_eq_false_iff,
        decide_eq_false_iff_not] at hab hba
      obtain ⟨hxy, hab'⟩ := hab
      obtain ⟨hyx, hba'⟩ := hba
      have hxyeq : x = y := le_antisymm (not_lt.1 hyx) (not_lt.1 hxy)
      subst hxyeq
      rcases hab' with h | h
      · exact absurd rfl h
      · rcases hba' with h' | h'
        · exact absurd rfl h'
        · rw [ih ys h h']

/-- The relation `strLe` is total. -/
theorem strLe_total (a b : List Char) : strLe a b = true ∨ strLe b a = true := by
  by_cases h : strLt b a = true
  · right
    simp [strLe, strLt_asymm b a h]
  · left
    simp only [strLe, Bool.not_eq_true']
    exact Bool.not_eq_true _ ▸ (Bool.eq_false_iff.2 h)

/-- The relation `strLe` is transitive. -/
theorem strLe_trans (a b c : List Char) :
    strLe a b = true → strLe b c = true → strLe a c = true := by
  simp only [strLe, Bool.not_eq_true']
  intro h1 h2
  by_contra hca
  have hca' : strLt c a = true := by
    cases hv : strLt c a
    · exact absurd (by simp [strLe, hv]) hca
    · rfl
  cases hbc : strLt b c with
  | true => exact absurd h1 (by simp [strLt_trans b c a hbc hca'])
  | false =>
    have : b = c := strLt_conn b c hbc h2
    subst this
    exact absurd h1 (by simp [hca'])

/-- After inserting prefix `p` with offset `o` into any trie, walking any key
that extends `p` reaches `Data o` exactly at depth `|p|` past the starting
depth. -/
theorem walkTrie_insertTrie :
    ∀ (p : List Bool) (t : PTrie) (o : Nat) (rest : List Bool) (d : Nat),
      walkTrie (insertTrie t p o) (p ++ rest) d = .found (d + p.length) o := by
  intro p
  induction p with
  | nil =>
    intro t o rest d
    cases t <;> simp [insertTrie, walkTrie]
  | cons b bs ih =>
    intro t o rest d
    cases t <;> cases b <;>
      simp only [insertTrie, walkTrie, List.cons_append, Bool.false_eq_true,
        ite_false, ite_true, List.length_cons] <;>
      rw [show d + (bs.length + 1) = (d + 1) + bs.length from by omega] <;>
      exact ih _ o rest (d + 1)

/-- Building a database whose last inserted entry is `(p, o)` inserts `(p, o)`
into the trie built from the earlier entries. -/
theorem buildTrie_append_single (es : List (List Bool × Nat)) (p : List Bool) (o : Nat) :
    buildTrie (es ++ [(p, o)]) = insertTrie (buildTrie es) p o := by
  simp [buildTrie, List.foldl_append]

/-- Elements surviving `dedupGo` come from the original list. -/
theorem mem_of_mem_dedupGo {α : Type} [DecidableEq α] :
    ∀ (l : List α) (p x : α), x ∈ dedupGo p l → x ∈ l := by
  intro l
  induction l with
  | nil => intro p x h; exact absurd h (by simp [dedupGo])
  | cons b rest ih =>
    intro p x h
    by_cases hpb : p = b
    · rw [dedupGo, if_pos hpb] at h
      exact List.mem_cons_of_mem b (ih p x h)
    · rw [dedupGo, if_neg hpb] at h
      rcases List.mem_cons.1 h with rfl | h'
      · exact List.mem_cons_self _ _
      · exact List.mem_cons_of_mem b (ih b x h')

/-- On an id-sorted pair list in which equal ids force equal pairs,
`dedupGo` leaves a strictly id-increasing list. -/
theorem pairwise_dedupGo :
    ∀ (l : List (Nat × List Char)) (a : Nat × List Char),
      (a :: l).Pairwise (fun x y => x.1 ≤ y.1) →
      (∀ x ∈ a :: l, ∀ y ∈ a :: l, x.1 = y.1 → x = y) →
      (a :: dedupGo a l).Pairwise (fun x y => x.1 < y.1) := by
  intro l
  induction l with
  | nil => intro a _ _; simp [dedupGo]
  | cons b rest ih =>
    intro a hs hinj
    have ha : ∀ y ∈ b :: rest, a.1 ≤ y.1 := (List.pairwise_cons.1 hs).1
    have hbs : (b :: rest).Pairwise (fun x y => x.1 ≤ y.1) := (List.pairwise_cons.1 hs).2
    by_cases hab : a = b
    · rw [dedupGo, if_pos hab]
      subst hab
      refine ih a ?_ ?_
      · exact List.pairwise_cons.2
          ⟨fun y hy => ha y (List.mem_cons_of_mem a hy), (List.pairwise_cons.1 hbs).2⟩
      · intro x hx y hy
        have sub : ∀ z, z ∈ a :: rest → z ∈ a :: a :: rest := by
          intro z hz
          rcases List.mem_cons.1 hz with rfl | hz'
          · exact List.mem_cons_self _ _
          · exact List.mem_cons_of_mem _ (List.mem_cons_of_mem _ hz')
        exact hinj x (sub x hx) y (sub y hy)
    · rw [dedupGo, if_neg hab]
      have hsub : ∀ z, z ∈ b :: rest → z ∈ a :: b :: rest := fun z hz =>
        List.mem_cons_of_mem a hz
      have htail : (b :: dedupGo b rest).Pairwise (fun x y => x.1 < y.1) :=
        ih b hbs (fun x hx y hy => hinj x (hsub x hx) y (hsub y hy))
      refine List.pairwise_cons.2 ⟨?_, htail⟩
      intro y hy
      have hmem : y ∈ b :: rest := by
        rcases List.mem_cons.1 hy with rfl | hy'
        · exact List.mem_cons_self _ _
        · exact List.mem_cons_of_mem b (mem_of_mem_dedupGo rest b y hy')
      have hle : a.1 ≤ y.1 := ha y hmem
      refine lt_of_le_of_ne hle ?_
      intro heq
      have hbley : b.1 ≤ y.1 := by
        rcases List.mem_cons.1 hmem with rfl | hy'
        · exact le_refl _
        · exact ((List.pairwise_cons.1 hbs).1) y hy'
      have hableb : a.1 ≤ b.1 := ha b (List.mem_cons_self _ _)
      have hba : b.1 = a.1 := le_antisymm (heq ▸ hbley) hableb
      exact hab (hinj a (List.mem_cons_self _ _) b
        (List.mem_cons_of_mem a (List.mem_cons_self _ _)) hba.symm)

/-- `std::unique` on an id-sorted pair list with id-determined payloads
yields a strictly id-increasing list. -/
theorem pairwise_dedupAdjacent (l : List (Nat × List Char))
    (hs : l.Pairwise (fun x y => x.1 ≤ y.1))
    (hinj : ∀ x ∈ l, ∀ y ∈ l, x.1 = y.1 → x = y) :
    (dedupAdjacent l).Pairwise (fun x y => x.1 < y.1) := by
  cases l with
  | nil => simp [dedupAdjacent]
  | cons a rest => exact pairwise_dedupGo rest a hs hinj

/-- Every pair accumulated by the `get_with_ids` loop carries the payload the
id-lookup resolves for its id. -/
theorem lookup_of_mem_collectIdMatches (aps : List (Nat × List Char)) (ids : List Nat)
    (x : Nat × List Char) (hx : x ∈ collectIdMatches aps ids) :
    lookupPattern aps x.1 = some x.2 := by
  simp only [collectIdMatches, List.mem_filterMap] at hx
  obtain ⟨id, _, h⟩ := hx
  rcases Option.map_eq_some'.1 h with ⟨p, hp, rfl⟩
  exact hp

/-- `natToBeBytes` writes exactly `n` bytes. -/
theorem natToBeBytes_length : ∀ (n v : Nat), (natToBeBytes n v).length = n := by
  intro n
  induction n with
  | zero => intro v; rfl
  | succ m ih => intro v; simp [natToBeBytes, ih]

/-- Folding the big-endian accumulator over `natToBeBytes` recovers the
value modulo the width. -/
theorem foldl_natToBeBytes :
    ∀ (n v acc : Nat),
      (natToBeBytes n v).foldl (fun a b => a * 256 + b) acc = acc * 256 ^ n + v % 256 ^ n := by
  intro n
  induction n with
  | zero => intro v acc; simp [natToBeBytes, Nat.mod_one]
  | succ m ih =>
    intro v acc
    rw [natToBeBytes, List.foldl_append, ih]
    simp only [List.foldl_cons, List.foldl_nil]
    have hmod : v % 256 ^ (m + 1) = 256 * ((v / 256) % 256 ^ m) + v % 256 := by
      rw [pow_succ, Nat.mul_comm (256 ^ m) 256, Nat.mod_mul]
      ring
    rw [hmod, pow_succ]
    ring

/-- Reading `enc.length` big-endian bytes off `enc ++ rest` folds `enc` into
the accumulator and leaves `rest`. -/
theorem readBEAcc_append :
    ∀ (enc : List Nat) (acc : Nat) (rest : List Nat),
      readBEAcc acc enc.length (enc ++ rest)
        = some (enc.foldl (fun a b => a * 256 + b) acc, rest) := by
  intro enc
  induction enc with
  | nil => intro acc rest; rfl
  | cons b bs ih =>
    intro acc rest
    simp only [List.length_cons, List.cons_append, readBEAcc, List.foldl_cons]
    exact ih (acc * 256 + b) rest

/-- Reading back the big-endian rendering of an in-range value recovers it. -/
theorem readBEAcc_natToBeBytes (n v : Nat) (rest : List Nat) (h : v < 256 ^ n) :
    readBEAcc 0 n (natToBeBytes n v ++ rest) = some (v, rest) := by
  have hl := natToBeBytes_length n v
  have := readBEAcc_append (natToBeBytes n v) 0 rest
  rw [hl] at this
  rw [this, foldl_natToBeBytes]
  simp [Nat.mod_eq_of_lt h]

/-- The size code produced by the encoder fits the low 5 bits. -/
theorem encodeSizeField_code_le (s : Nat) : (encodeSizeField s).1 ≤ 31 := by
  unfold encodeSizeField
  split
  · omega
  · split
    · omega
    · split <;> omega

/-- Decoding the encoded size field recovers the size and leaves the tail. -/
theorem readSizeField_encodeSizeField (s : Nat) (rest : List Nat)
    (h : s ≤ maxEncodableSize) :
    readSizeField (encodeSizeField s).1 ((encodeSizeField s).2 ++ rest) = some (s, rest) := by
  unfold maxEncodableSize at h
  unfold encodeSizeField
  split
  · rename_i h28
    simp [readSizeField, h28]
  · rename_i h28
    split
    · rename_i h284
      simp [readSizeField, readBEAcc]
      omega
    · rename_i h284
      split
      · rename_i h65820
        simp [readSizeField, readBEAcc]
        omega
      · rename_i h65820
        simp [readSizeField, readBEAcc]
        omega

/-- Decoding the header the encoder wrote recovers the actual type code and
size (types 1..15, sizes within the size-field range). -/
theorem readCtrl_encodeCtrl (t s : Nat) (rest : List Nat)
    (ht1 : 1 ≤ t) (ht2 : t ≤ 15) (hs : s ≤ maxEncodableSize) :
    readCtrl (encodeCtrl t s ++ rest) = some (t, s, rest) := by
  have hcode := encodeSizeField_code_le s
  have hand : ∀ c : Nat, c &&& 31 = c % 32 := by
    intro c
    have := Nat.and_pow_two_sub_one_eq_mod c 5
    norm_num at this
    exact this
  unfold encodeCtrl
  split
  · rename_i ht7
    simp only [List.cons_append, readCtrl, readTypeCode]
    rw [Nat.shiftRight_eq_div_pow]
    have hdiv : (t * 32 + (encodeSizeField s).1) / 2 ^ 5 = t := by
      norm_num
      omega
    rw [hdiv, if_neg (by omega), hand]
    have hmod : (t * 32 + (encodeSizeField s).1) % 32 = (encodeSizeField s).1 := by
      omega
    rw [hmod]
    simp only [readSizeField_encodeSizeField s rest hs]
  · rename_i ht7
    simp only [Nat.zero_mul, Nat.zero_add, List.cons_append, readCtrl, readTypeCode]
    rw [Nat.shiftRight_eq_div_pow]
    have hdiv : (encodeSizeField s).1 / 2 ^ 5 = 0 := by
      norm_num
      omega
    rw [hdiv, if_pos rfl, hand]
    have hmod : (encodeSizeField s).1 % 32 = (encodeSizeField s).1 := by
      omega
    rw [hmod]
    simp only [readSizeField_encodeSizeField s rest hs]
    have ht' : t - 7 + 7 = t := by omega
    rw [ht']

/-- Taking exactly the length of the left half of an append splits it. -/
theorem takeBytes_append (l r : List Nat) : takeBytes l.length (l ++ r) = some (l, r) := by
  unfold takeBytes
  rw [if_pos (by simp), List.take_left, List.drop_left]

/-- `byteLenGo` returns a width wide enough for the value. -/
theorem byteLenGo_spec :
    ∀ (fuel v : Nat), v < 256 ^ fuel → v < 256 ^ byteLenGo fuel v := by
  intro fuel
  induction fuel with
  | zero => intro v h; simpa [byteLenGo] using h
  | succ m ih =>
    intro v h
    by_cases hv : v = 0
    · simp [byteLenGo, hv]
    · rw [byteLenGo, if_neg hv]
      have hdiv : v / 256 < 256 ^ m := by
        rw [pow_succ] at h
        exact Nat.div_lt_of_lt_mul (by omega)
      have h1 := ih (v / 256) hdiv
      rw [pow_succ]
      have h2 : v % 256 < 256 := Nat.mod_lt v (by omega)
      have h3 : v = 256 * (v / 256) + v % 256 := by omega
      set a := 256 ^ byteLenGo m (v / 256)
      omega

/-- `byteLenGo` never exceeds the true width of the value. -/
theorem byteLenGo_le :
    ∀ (fuel n v : Nat), v < 256 ^ n → n ≤ fuel → byteLenGo fuel v ≤ n := by
  intro fuel
  induction fuel with
  | zero => intro n v _ h; simp [byteLenGo]
  | succ m ih =>
    intro n v hv hn
    by_cases h0 : v = 0
    · simp [byteLenGo, h0]
    · rw [byteLenGo, if_neg h0]
      cases n with
      | zero => simp at hv; omega
      | succ n' =>
        have hdiv : v / 256 < 256 ^ n' := by
          rw [pow_succ] at hv
          exact Nat.div_lt_of_lt_mul (by omega)
        have := ih n' (v / 256) hdiv (by omega)
        omega

/-- An encoded control byte is at least one byte long. -/
theorem encodeCtrl_length_pos (t s : Nat) : 1 ≤ (encodeCtrl t s).length := by
  unfold encodeCtrl
  split <;> simp

/-- Every value needs at least one unit of decode fuel. -/
theorem valueFuel_pos : ∀ v : Value, 1 ≤ valueFuel v := by
  intro v
  cases v <;> simp [valueFuel]

mutual

/-- The decode fuel a value needs is at most its encoded length. -/
theorem valueFuel_le_encLen : (v : Value) → valueFuel v ≤ (encodeValue v).length
  | .utf8String s => by
    have := encodeCtrl_length_pos 2 s.length
    simp only [valueFuel, encodeValue, List.length_append]
    omega
  | .double v => by
    have := encodeCtrl_length_pos 3 8
    simp only [valueFuel, encodeValue, List.length_append]
    omega
  | .bytes s => by
    have := encodeCtrl_length_pos 4 s.length
    simp only [valueFuel, encodeValue, List.length_append]
    omega
  | .uint16 v => by
    have := encodeCtrl_length_pos 5 (byteLen v)
    simp only [valueFuel, encodeValue, List.length_append]
    omega
  | .uint32 v => by
    have := encodeCtrl_length_pos 6 (byteLen v)
    simp only [valueFuel, encodeValue, List.length_append]
    omega
  | .map pairs => by
    have h1 := pairsFuel_le_encLen pairs
    have h2 := encodeCtrl_length_pos 7 (listSize pairs)
    simp only [valueFuel, encodeValue, List.length_append]
    omega
  | .int32 v => by
    have := encodeCtrl_length_pos 8 4
    simp only [valueFuel, encodeValue, List.length_append]
    omega
  | .uint64 v => by
    have := encodeCtrl_length_pos 9 (byteLen v)
    simp only [valueFuel, encodeValue, List.length_append]
    omega
  | .uint128 v => by
    have := encodeCtrl_length_pos 10 (byteLen v)
    simp only [valueFuel, encodeValue, List.length_append]
    omega
  | .array xs => by
    have h1 := elemsFuel_le_encLen xs
    have h2 := encodeCtrl_length_pos 11 (listSize xs)
    simp only [valueFuel, encodeValue, List.length_append]
    omega
  | .boolean b => by
    have := encodeCtrl_length_pos 14 (if b then 1 else 0)
    simp only [valueFuel, encodeValue]
    omega
  | .float v => by
    have := encodeCtrl_length_pos 15 4
    simp only [valueFuel, encodeValue, List.length_append]
    omega

/-- The decode fuel a pair list needs is at most its encoded length. -/
theorem pairsFuel_le_encLen : (ps : List (List Nat × Value)) →
    pairsFuel ps ≤ (encodePairs ps).length
  | [] => by simp [pairsFuel, encodePairs]
  | (k, v) :: rest => by
    have h1 := valueFuel_le_encLen v
    have h2 := pairsFuel_le_encLen rest
    have h3 := encodeCtrl_length_pos 2 k.length
    simp only [pairsFuel, encodePairs, List.length_append]
    omega

/-- The decode fuel an element list needs is at most its encoded length. -/
theorem elemsFuel_le_encLen : (xs : List Value) →
    elemsFuel xs ≤ (encodeElems xs).length
  | [] => by simp [elemsFuel, encodeElems]
  | v :: rest => by
    have h1 := valueFuel_le_encLen v
    have h2 := elemsFuel_le_encLen rest
    simp only [elemsFuel, encodeElems, List.length_append]
    omega

end

/-- Decoding the encoded pair list of a map recovers it, assuming the
single-value decoder is correct at this fuel. -/
theorem decodePairs_encodePairs (fuel : Nat)
    (hA : ∀ (v : Value) (rest : List Nat), wfValue v = true → valueFuel v ≤ fuel →
        decodeValue fuel (encodeValue v ++ rest) = some (v, rest)) :
    ∀ (ps : List (List Nat × Value)) (rest : List Nat), wfPairs ps = true →
      pairsFuel ps ≤ fuel →
      decodePairs fuel ps.length (encodePairs ps ++ rest) = some (ps, rest) := by
  intro ps
  induction ps with
  | nil => intro rest _ _; simp [encodePairs, decodePairs]
  | cons kv tail ih =>
    obtain ⟨k, v⟩ := kv
    intro rest hwf hfuel
    simp only [wfPairs, Bool.and_eq_true, decide_eq_true_eq] at hwf
    obtain ⟨⟨⟨hk1, hk2⟩, hwv⟩, hwtail⟩ := hwf
    simp only [pairsFuel, max_le_iff] at hfuel
    obtain ⟨⟨hfv, hftail⟩, hf1⟩ := hfuel
    have hkey := hA (.utf8String k) (encodeValue v ++ (encodePairs tail ++ rest))
      (by simp only [wfValue, Bool.and_eq_true, decide_eq_true_eq]
          exact ⟨hk1, hk2⟩)
      (by simp [valueFuel]; omega)
    simp only [encodeValue, List.append_assoc] at hkey
    simp only [List.length_cons, encodePairs, List.append_assoc]
    rw [decodePairs, hkey]
    simp only [hA v (encodePairs tail ++ rest) hwv hfv, ih rest hwtail hftail]

/-- Decoding the encoded element list of an array recovers it, assuming the
single-value decoder is correct at this fuel. -/
theorem decodeElems_encodeElems (fuel : Nat)
    (hA : ∀ (v : Value) (rest : List Nat), wfValue v = true → valueFuel v ≤ fuel →
        decodeValue fuel (encodeValue v ++ rest) = some (v, rest)) :
    ∀ (xs : List Value) (rest : List Nat), wfElems xs = true →
      elemsFuel xs ≤ fuel →
      decodeElems fuel xs.length (encodeElems xs ++ rest) = some (xs, rest) := by
  intro xs
  induction xs with
  | nil => intro rest _ _; simp [encodeElems, decodeElems]
  | cons v tail ih =>
    intro rest hwf hfuel
    simp only [wfElems, Bool.and_eq_true] at hwf
    obtain ⟨hwv, hwtail⟩ := hwf
    simp only [elemsFuel, max_le_iff] at hfuel
    obtain ⟨hfv, hftail⟩ := hfuel
    simp only [List.length_cons, encodeElems, List.append_assoc]
    rw [decodeElems]
    simp only [hA v (encodeElems tail ++ rest) hwv hfv, ih rest hwtail hftail]

/-- **Codec round trip**: decoding the encoding of any well-formed value,
with fuel at least the value's nesting need, recovers the value exactly and
leaves the trailing bytes. -/
theorem decodeValue_encodeValue :
    ∀ (fuel : Nat) (v : Value) (rest : List Nat),
      wfValue v = true → valueFuel v ≤ fuel →
      decodeValue fuel (encodeValue v ++ rest) = some (v, rest) := by
  intro fuel
  induction fuel with
  | zero =>
    intro v rest _ hfuel
    have := valueFuel_pos v
    omega
  | succ fuel ih =>
    intro v rest hwf hfuel
    have hmax16 : (16 : Nat) ≤ maxEncodableSize := by unfold maxEncodableSize; norm_num
    cases v with
    | utf8String s =>
      simp only [wfValue, Bool.and_eq_true, decide_eq_true_eq] at hwf
      simp only [encodeValue, List.append_assoc]
      rw [decodeValue, readCtrl_encodeCtrl 2 s.length (s ++ rest)
        (by omega) (by omega) hwf.1]
      simp [takeBytes_append]
    | double v =>
      simp only [wfValue, decide_eq_true_eq] at hwf
      have hv : v < 256 ^ 8 := by norm_num; omega
      simp only [encodeValue, List.append_assoc]
      rw [decodeValue, readCtrl_encodeCtrl 3 8 (natToBeBytes 8 v ++ rest)
        (by omega) (by omega) (by unfold maxEncodableSize; norm_num)]
      simp [readBEAcc_natToBeBytes 8 v rest hv]
    | bytes s =>
      simp only [wfValue, Bool.and_eq_true, decide_eq_true_eq] at hwf
      simp only [encodeValue, List.append_assoc]
      rw [decodeValue, readCtrl_encodeCtrl 4 s.length (s ++ rest)
        (by omega) (by omega) hwf.1]
      simp [takeBytes_append]
    | uint16 v =>
      simp only [wfValue, decide_eq_true_eq] at hwf
      have hv16 : v < 256 ^ 16 := by norm_num; omega
      have hlen : byteLen v ≤ 2 := byteLenGo_le 16 2 v (by norm_num; omega) (by omega)
      have hv : v < 256 ^ byteLen v := byteLenGo_spec 16 v hv16
      simp only [encodeValue, List.append_assoc]
      rw [decodeValue, readCtrl_encodeCtrl 5 (byteLen v) (natToBeBytes (byteLen v) v ++ rest)
        (by omega) (by omega) (by omega)]
      simp [hlen, readBEAcc_natToBeBytes (byteLen v) v rest hv]
    | uint32 v =>
      simp only [wfValue, decide_eq_true_eq] at hwf
      have hv16 : v < 256 ^ 16 := by norm_num; omega
      have hlen : byteLen v ≤ 4 := byteLenGo_le 16 4 v (by norm_num; omega) (by omega)
      have hv : v < 256 ^ byteLen v := byteLenGo_spec 16 v hv16
      simp only [encodeValue, List.append_assoc]
      rw [decodeValue, readCtrl_encodeCtrl 6 (byteLen v) (natToBeBytes (byteLen v) v ++ rest)
        (by omega) (by omega) (by omega)]
      simp [hlen, readBEAcc_natToBeBytes (byteLen v) v rest hv]
    | map pairs =>
      simp only [wfValue, Bool.and_eq_true, decide_eq_true_eq] at hwf
      simp only [valueFuel] at hfuel
      simp only [encodeValue, List.append_assoc]
      rw [decodeValue, readCtrl_encodeCtrl 7 (listSize pairs) (encodePairs pairs ++ rest)
        (by omega) (by omega) hwf.1]
      have hp := decodePairs_encodePairs fuel (fun w r hw hf => ih w r hw hf)
        pairs rest hwf.2 (by omega)
      simp only [listSize]
      simp [hp]
    | int32 v =>
      simp only [wfValue, decide_eq_true_eq] at hwf
      have hv : v < 256 ^ 4 := by norm_num; omega
      simp only [encodeValue, List.append_assoc]
      rw [decodeValue, readCtrl_encodeCtrl 8 4 (natToBeBytes 4 v ++ rest)
        (by omega) (by omega) (by omega)]
      simp [readBEAcc_natToBeBytes 4 v rest hv]
    | uint64 v =>
      simp only [wfValue, decide_eq_true_eq] at hwf
      have hv16 : v < 256 ^ 16 := by norm_num; omega
      have hlen : byteLen v ≤ 8 := byteLenGo_le 16 8 v (by norm_num; omega) (by omega)
      have hv : v < 256 ^ byteLen v := byteLenGo_spec 16 v hv16
      simp only [encodeValue, List.append_assoc]
      rw [decodeValue, readCtrl_encodeCtrl 9 (byteLen v) (natToBeBytes (byteLen v) v ++ rest)
        (by omega) (by omega) (by omega)]
      simp [hlen, readBEAcc_natToBeBytes (byteLen v) v rest hv]
    | uint128 v =>
      simp only [wfValue, decide_eq_true_eq] at hwf
      have hv16 : v < 256 ^ 16 := by norm_num; omega
      have hlen : byteLen v ≤ 16 := byteLenGo_le 16 16 v hv16 (by omega)
      have hv : v < 256 ^ byteLen v := byteLenGo_spec 16 v hv16
      simp only [encodeValue, List.append_assoc]
      rw [decodeValue, readCtrl_encodeCtrl 10 (byteLen v) (natToBeBytes (byteLen v) v ++ rest)
        (by omega) (by omega) (by omega)]
      simp [hlen, readBEAcc_natToBeBytes (byteLen v) v rest hv]
    | array xs =>
      simp only [wfValue, Bool.and_eq_true, decide_eq_true_eq] at hwf
      simp only [valueFuel] at hfuel
      simp only [encodeValue, List.append_assoc]
      rw [decodeValue, readCtrl_encodeCtrl 11 (listSize xs) (encodeElems xs ++ rest)
        (by omega) (by omega) hwf.1]
      have hp := decodeElems_encodeElems fuel (fun w r hw hf => ih w r hw hf)
        xs rest hwf.2 (by omega)
      simp only [listSize]
      simp [hp]
    | boolean b =>
      cases b with
      | false =>
        simp only [encodeValue, Bool.false_eq_true, ite_false]
        rw [decodeValue, readCtrl_encodeCtrl 14 0 rest (by omega) (by omega) (by omega)]
        simp
      | true =>
        simp only [encodeValue, ite_true]
        rw [decodeValue, readCtrl_encodeCtrl 14 1 rest (by omega) (by omega) (by omega)]
        simp
    | float v =>
      simp only [wfValue, decide_eq_true_eq] at hwf
      have hv : v < 256 ^ 4 := by norm_num; omega
      simp only [encodeValue, List.append_assoc]
      rw [decodeValue, readCtrl_encodeCtrl 15 4 (natToBeBytes 4 v ++ rest)
        (by omega) (by omega) (by omega)]
      simp [readBEAcc_natToBeBytes 4 v rest hv]

mutual

/-- Serializing the normalized form of a JSON payload recovers the payload. -/
theorem valueToJson_jsonToValue : (j : Json) → valueToJson (jsonToValue j) = some j
  | .str s => rfl
  | .num v => rfl
  | .bool b => rfl
  | .arr xs => by
    simp only [jsonToValue, valueToJson, valuesToJsons_jsonListToValues xs, Option.map_some']
  | .obj ps => by
    simp only [jsonToValue, valueToJson, pairsToJsons_jsonObjToPairs ps, Option.map_some']

/-- Element-wise version for arrays. -/
theorem valuesToJsons_jsonListToValues :
    (xs : List Json) → valuesToJsons (jsonListToValues xs) = some xs
  | [] => rfl
  | j :: rest => by
    simp only [jsonListToValues, valuesToJsons, valueToJson_jsonToValue j,
      valuesToJsons_jsonListToValues rest]

/-- Pair-wise version for objects. -/
theorem pairsToJsons_jsonObjToPairs :
    (ps : List (List Nat × Json)) → pairsToJsons (jsonObjToPairs ps) = some ps
  | [] => rfl
  | (k, j) :: rest => by
    simp only [jsonObjToPairs, pairsToJsons, valueToJson_jsonToValue j,
      pairsToJsons_jsonObjToPairs rest]

end

/-- Payload normalization preserves object arity. -/
theorem jsonObjToPairs_length (ps : List (List Nat × Json)) :
    (jsonObjToPairs ps).length = ps.length := by
  induction ps with
  | nil => rfl
  | cons kv rest ih =>
    obtain ⟨k, j⟩ := kv
    simp [jsonObjToPairs, ih]

/-- Payload normalization preserves array arity. -/
theorem jsonListToValues_length (xs : List Json) :
    (jsonListToValues xs).length = xs.length := by
  induction xs with
  | nil => rfl
  | cons j rest ih => simp [jsonListToValues, ih]

mutual

/-- Payload normalization of a well-formed JSON payload produces a
well-formed value. -/
theorem wfValue_jsonToValue : (j : Json) → wfJson j = true → wfValue (jsonToValue j) = true
  | .str s => fun h => h
  | .num v => fun h => h
  | .bool _ => fun _ => rfl
  | .arr xs => by
    intro h
    simp only [wfJson, Bool.and_eq_true, decide_eq_true_eq, listSize] at h
    simp only [jsonToValue, wfValue, Bool.and_eq_true, decide_eq_true_eq, listSize]
    exact ⟨by rw [jsonListToValues_length]; exact h.1, wfElems_jsonListToValues xs h.2⟩
  | .obj ps => by
    intro h
    simp only [wfJson, Bool.and_eq_true, decide_eq_true_eq, listSize] at h
    simp only [jsonToValue, wfValue, Bool.and_eq_true, decide_eq_true_eq, listSize]
    exact ⟨by rw [jsonObjToPairs_length]; exact h.1, wfPairs_jsonObjToPairs ps h.2⟩

/-- Element-wise well-formedness transfer for arrays. -/
theorem wfElems_jsonListToValues :
    (xs : List Json) → wfJsonList xs = true → wfElems (jsonListToValues xs) = true
  | [] => fun _ => rfl
  | j :: rest => by
    intro h
    simp only [wfJsonList, Bool.and_eq_true] at h
    simp only [jsonListToValues, wfElems, Bool.and_eq_true]
    exact ⟨wfValue_jsonToValue j h.1, wfElems_jsonListToValues rest h.2⟩

/-- Pair-wise well-formedness transfer for objects. -/
theorem wfPairs_jsonObjToPairs :
    (ps : List (List Nat × Json)) → wfJsonObj ps = true → wfPairs (jsonObjToPairs ps) = true
  | [] => fun _ => rfl
  | (k, j) :: rest => by
    intro h
    simp only [wfJsonObj, Bool.and_eq_true, decide_eq_true_eq] at h
    simp only [jsonObjToPairs, wfPairs, Bool.and_eq_true, decide_eq_true_eq]
    exact ⟨⟨⟨h.1.1.1, h.1.1.2⟩, wfValue_jsonToValue j h.1.2⟩,
      wfPairs_jsonObjToPairs rest h.2⟩

end

/-- `navigate` distributes over path concatenation: the second leg runs from
wherever the first leg arrived, and a first-leg error is final. -/
theorem navigate_append (p1 p2 : List (List Nat)) :
    ∀ v : Value, navigate v (p1 ++ p2)
      = match navigate v p1 with
        | .ok w => navigate w p2
        | .error e => .error e := by
  induction p1 with
  | nil => intro v; simp [navigate]
  | cons k rest ih =>
    intro v
    cases v with
    | map pairs =>
      cases hl : lookupKey pairs k with
      | some v' =>
        simp only [List.cons_append, navigate, hl]
        exact ih v'
      | none => simp only [List.cons_append, navigate, hl]
    | array xs =>
      cases hpi : parseIndex k with
      | some i =>
        cases hg : xs[i]? with
        | some v' =>
          simp only [List.cons_append, navigate, hpi, hg]
          exact ih v'
        | none => simp only [List.cons_append, navigate, hpi, hg]
      | none => simp only [List.cons_append, navigate, hpi]
    | utf8String s => rfl
    | double v => rfl
    | bytes s => rfl
    | uint16 v => rfl
    | uint32 v => rfl
    | int32 v => rfl
    | uint64 v => rfl
    | uint128 v => rfl
    | boolean b => rfl
    | float v => rfl

/-- The varargs collection loop keeps exactly the first `fuel` components. -/
theorem collectVarargs_eq_take :
    ∀ (fuel : Nat) (args : List (List Char)), collectVarargs fuel args = args.take fuel := by
  intro fuel
  induction fuel with
  | zero => intro args; cases args <;> rfl
  | succ n ih =>
    intro args
    cases args with
    | nil => rfl
    | cons a rest => simp [collectVarargs, ih]

end Matchy

/-! # Claim theorems -/

/-! ## C1: pattern soundness and completeness -/

/-- **C1** (code_bug evaluation): the claim "p is in the result iff p matches
T, each candidate confirmed by a full glob match" fails on
`Paraglob::get` in src/cpp/matchy.cpp: with stored patterns
`{"*.txt","hello"}` and input `"a.txt"`, the code returns **both** stored
patterns (it assigns all of `patterns_` whenever the single query reports
any match), yet `"hello"` does not glob-match `"a.txt"`. -/
theorem c1_get_returns_nonmatching_pattern :
    Matchy.matchyCppGet ["*.txt".toList, "hello".toList] "a.txt".toList
        = ["*.txt".toList, "hello".toList] ∧
    "hello".toList ∈ Matchy.matchyCppGet ["*.txt".toList, "hello".toList] "a.txt".toList ∧
    Matchy.globMatch "hello".toList "a.txt".toList = false ∧
    Matchy.globMatch "*.txt".toList "a.txt".toList = true := by
  refine ⟨by decide, by decide, by decide, by decide⟩

/-! ## C2: longest-prefix resolution -/

/-- **C2**: for a database built from a chain of nested prefixes
`p1 ⊂ … ⊂ pn` (inserted in sorted order, so `pn` last), walking any key that
satisfies `pn` reports found with `prefix_len = |pn|` and `pn`'s offset;
moreover a `Data` record encountered at any depth wins immediately (deeper
bits are not consulted) and an `Empty` record yields not-found at the
current depth with no fallback to an ancestor. -/
theorem c2_nested_prefixes_resolve (es : List (List Bool × Nat)) (hne : es ≠ [])
    (hchain : Matchy.prefixChainB (es.map Prod.fst) = true) (rest : List Bool) :
    Matchy.walkTrie (Matchy.buildTrie es) ((es.getLast hne).1 ++ rest) 0
        = .found (es.getLast hne).1.length (es.getLast hne).2 ∧
    (∀ (o : Nat) (bits : List Bool) (d : Nat),
        Matchy.walkTrie (.data o) bits d = .found d o) ∧
    (∀ (bits : List Bool) (d : Nat),
        Matchy.walkTrie .empty bits d = .notfound d) := by
  refine ⟨?_, fun o bits d => by cases bits <;> rfl, fun bits d => by cases bits <;> rfl⟩
  obtain rfl | ⟨init, ⟨p, o⟩, rfl⟩ := List.eq_nil_or_concat es
  · exact absurd rfl hne
  · simp only [List.concat_eq_append] at hne hchain ⊢
    rw [List.getLast_concat, Matchy.buildTrie_append_single, Matchy.walkTrie_insertTrie]
    simp

/-- **C2 witness**: chain `0 ⊂ 01` with offsets 5 and 7; the key `011`
satisfies the longer prefix and resolves to depth 2 with offset 7. -/
theorem c2_nested_prefixes_resolve_witness :
    Matchy.walkTrie (Matchy.buildTrie [([false], 5), ([false, true], 7)])
        ([false, true] ++ [true]) 0 = .found 2 7 :=
  (c2_nested_prefixes_resolve [([false], 5), ([false, true], 7)] (by decide) (by decide) [true]).1

/-! ## C3: build/open/query/to_json round trip -/

/-- **C3**: for every well-formed JSON payload P and every key K, building a
database from the single pair {K → P}, opening it, querying K, and
serializing the result with `to_json` yields a JSON value semantically equal
to P (numbers carried as Double bit patterns throughout, per the §4.6
numeric policy). -/
theorem c3_round_trip (keyBits : List Bool) (P : Matchy.Json)
    (h : Matchy.wfJson P = true) :
    Matchy.querySingleToJson keyBits P = some P := by
  unfold Matchy.querySingleToJson Matchy.buildSingle
  have hwalk : Matchy.walkTrie (Matchy.insertTrie .empty keyBits 0) keyBits 0
      = .found keyBits.length 0 := by
    have h2 := Matchy.walkTrie_insertTrie keyBits .empty 0 [] 0
    simpa using h2
  simp only [hwalk, List.drop_zero]
  have hdec := Matchy.decodeValue_encodeValue
    (Matchy.encodeValue (Matchy.jsonToValue P)).length (Matchy.jsonToValue P) []
    (Matchy.wfValue_jsonToValue P h) (Matchy.valueFuel_le_encLen (Matchy.jsonToValue P))
  rw [List.append_nil] at hdec
  simp only [hdec]
  exact Matchy.valueToJson_jsonToValue P

/-- **C3 witness**: the pair {`10` → `{"a": "hi"}`} (key bits `[true,false]`,
object with byte-string key `a` and value `hi`) survives the full
build/open/query/to_json pipeline unchanged. -/
theorem c3_round_trip_witness :
    Matchy.wfJson (.obj [([97], .str [104, 105])]) = true ∧
    Matchy.querySingleToJson [true, false] (.obj [([97], .str [104, 105])])
      = some (.obj [([97], .str [104, 105])]) :=
  ⟨by decide, c3_round_trip [true, false] (.obj [([97], .str [104, 105])]) (by decide)⟩

/-! ## C6: value codec control-byte contract -/

/-- **C6**: the decoder reads the high 3 bits of the control byte as
`type_code` and the low 5 bits as `size_code`; when `type_code` is 0, one
following byte plus 7 gives the actual type code; the decoded size equals
the size code for 0..28, `29 + byte` for 29, `285 + u16` for 30, and
`65821 + u24` for 31; and the fixed assignments hold, including 14=Boolean
(size code 0 false, 1 true) and 15=Float (4-byte big-endian payload). -/
theorem c6_control_byte_contract :
    (∀ (c : Nat) (bytes : List Nat), c / 32 ≠ 0 →
        Matchy.readTypeCode c bytes = some (c / 32, bytes)) ∧
    (∀ (c b : Nat) (bytes : List Nat), c / 32 = 0 →
        Matchy.readTypeCode c (b :: bytes) = some (b + 7, bytes)) ∧
    (∀ (sc : Nat) (bytes : List Nat), sc ≤ 28 →
        Matchy.readSizeField sc bytes = some (sc, bytes)) ∧
    (∀ (b : Nat) (bytes : List Nat),
        Matchy.readSizeField 29 (b :: bytes) = some (29 + b, bytes)) ∧
    (∀ (b1 b2 : Nat) (bytes : List Nat),
        Matchy.readSizeField 30 (b1 :: b2 :: bytes)
          = some (285 + (256 * b1 + b2), bytes)) ∧
    (∀ (b1 b2 b3 : Nat) (bytes : List Nat),
        Matchy.readSizeField 31 (b1 :: b2 :: b3 :: bytes)
          = some (65821 + (65536 * b1 + 256 * b2 + b3), bytes)) ∧
    (∀ (c : Nat) (bytes : List Nat), c / 32 ≠ 0 →
        Matchy.readCtrl (c :: bytes)
          = (Matchy.readSizeField (c % 32) bytes).map (fun sr => (c / 32, sr.1, sr.2))) ∧
    (∀ (fuel : Nat) (rest : List Nat),
        Matchy.decodeValue (fuel + 1) (Matchy.encodeCtrl 14 0 ++ rest)
            = some (.boolean false, rest) ∧
        Matchy.decodeValue (fuel + 1) (Matchy.encodeCtrl 14 1 ++ rest)
            = some (.boolean true, rest)) ∧
    (∀ (fuel v : Nat) (rest : List Nat), v < 2 ^ 32 →
        Matchy.decodeValue (fuel + 1)
            (Matchy.encodeCtrl 15 4 ++ (Matchy.natToBeBytes 4 v ++ rest))
          = some (.float v, rest)) := by
  have hand : ∀ c : Nat, c &&& 31 = c % 32 := by
    intro c
    have := Nat.and_pow_two_sub_one_eq_mod c 5
    norm_num at this
    exact this
  have hshift : ∀ c : Nat, c >>> 5 = c / 32 := by
    intro c
    rw [Nat.shiftRight_eq_div_pow]
    try norm_num
  refine ⟨?_, ?_, ?_, ?_, ?_, ?_, ?_, ?_, ?_⟩
  · intro c bytes hc
    unfold Matchy.readTypeCode
    rw [hshift, if_neg hc]
  · intro c b bytes hc
    unfold Matchy.readTypeCode
    rw [hshift, if_pos hc]
  · intro sc bytes hsc
    unfold Matchy.readSizeField
    rw [if_pos hsc]
  · intro b bytes
    simp [Matchy.readSizeField, Matchy.readBEAcc]
  · intro b1 b2 bytes
    simp [Matchy.readSizeField, Matchy.readBEAcc]
    try omega
  · intro b1 b2 b3 bytes
    simp [Matchy.readSizeField, Matchy.readBEAcc]
    try omega
  · intro c bytes hc
    simp only [Matchy.readCtrl, Matchy.readTypeCode, hshift, hand, if_neg hc]
    cases Matchy.readSizeField (c % 32) bytes with
    | some sr => simp
    | none => simp
  · intro fuel rest
    constructor
    · rw [Matchy.decodeValue,
        Matchy.readCtrl_encodeCtrl 14 0 rest (by omega) (by omega)
          (by norm_num [Matchy.maxEncodableSize])]
      simp
    · rw [Matchy.decodeValue,
        Matchy.readCtrl_encodeCtrl 14 1 rest (by omega) (by omega)
          (by norm_num [Matchy.maxEncodableSize])]
      simp
  · intro fuel v rest hv
    have hv' : v < 256 ^ 4 := by norm_num; omega
    rw [Matchy.decodeValue,
      Matchy.readCtrl_encodeCtrl 15 4 (Matchy.natToBeBytes 4 v ++ rest)
        (by omega) (by omega) (by norm_num [Matchy.maxEncodableSize])]
    simp [Matchy.readBEAcc_natToBeBytes 4 v rest hv']

/-- **C6 witness**: control byte 78 = `0b010_01110` parses as type 2, and the
three long-size forms decode concrete byte sequences to the claimed sums. -/
theorem c6_control_byte_contract_witness :
    Matchy.readTypeCode 78 [] = some (2, []) ∧
    Matchy.readSizeField 29 [5] = some (34, []) ∧
    Matchy.readSizeField 30 [1, 2] = some (543, []) ∧
    Matchy.readSizeField 31 [1, 0, 0] = some (131357, []) ∧
    Matchy.decodeValue 1 (Matchy.encodeCtrl 14 1) = some (.boolean true, []) := by
  have h := c6_control_byte_contract
  refine ⟨?_, ?_, ?_, ?_, ?_⟩
  · have h1 := h.1 78 [] (by decide)
    simpa using h1
  · simpa using h.2.2.2.1 5 []
  · simpa using h.2.2.2.2.1 1 2 []
  · simpa using h.2.2.2.2.2.1 1 0 0 []
  · have h5 := (h.2.2.2.2.2.2.2.1 0 []).2
    simpa using h5

/-! ## C7: navigate error contract -/

/-- **C7**: when a valid prefix of the path navigates to a Map lacking the
next key, or to an Array whose next component is unparseable or out of
range, `navigate` reports `LOOKUP_PATH_INVALID` with no data; reaching a
non-container with components remaining reports
`LOOKUP_PATH_DOES_NOT_MATCH_DATA`; and the entry stays valid: any other
path that navigates successfully still yields its value. -/
theorem c7_navigate_error_contract (v w : Matchy.Value) (pre : List (List Nat))
    (k : List Nat) (rest : List (List Nat))
    (hpre : Matchy.navigate v pre = .ok w) :
    (∀ pairs, w = .map pairs → Matchy.lookupKey pairs k = none →
        Matchy.aget_value v (pre ++ k :: rest)
          = (Matchy.MMDB_INVALID_LOOKUP_PATH_ERROR, none)) ∧
    (∀ xs, w = .array xs → Matchy.parseIndex k = none →
        Matchy.aget_value v (pre ++ k :: rest)
          = (Matchy.MMDB_INVALID_LOOKUP_PATH_ERROR, none)) ∧
    (∀ xs i, w = .array xs → Matchy.parseIndex k = some i → xs[i]? = none →
        Matchy.aget_value v (pre ++ k :: rest)
          = (Matchy.MMDB_INVALID_LOOKUP_PATH_ERROR, none)) ∧
    (Matchy.notContainer w = true →
        Matchy.aget_value v (pre ++ k :: rest)
          = (Matchy.MMDB_LOOKUP_PATH_DOES_NOT_MATCH_DATA_ERROR, none)) ∧
    (∀ (p2 : List (List Nat)) (u : Matchy.Value), Matchy.navigate v p2 = .ok u →
        Matchy.aget_value v p2 = (0, some u)) := by
  refine ⟨?_, ?_, ?_, ?_, ?_⟩
  · intro pairs hw hlk
    subst hw
    simp [Matchy.aget_value, Matchy.navigate_append, hpre, Matchy.navigate, hlk]
  · intro xs hw hpi
    subst hw
    simp [Matchy.aget_value, Matchy.navigate_append, hpre, Matchy.navigate, hpi]
  · intro xs i hw hpi hg
    subst hw
    simp [Matchy.aget_value, Matchy.navigate_append, hpre, Matchy.navigate, hpi, hg]
  · intro hnc
    simp only [Matchy.aget_value, Matchy.navigate_append, hpre]
    cases w with
    | map pairs => exact absurd hnc (by simp [Matchy.notContainer])
    | array xs => exact absurd hnc (by simp [Matchy.notContainer])
    | utf8String s => simp [Matchy.navigate]
    | double x => simp [Matchy.navigate]
    | bytes s => simp [Matchy.navigate]
    | uint16 x => simp [Matchy.navigate]
    | uint32 x => simp [Matchy.navigate]
    | int32 x => simp [Matchy.navigate]
    | uint64 x => simp [Matchy.navigate]
    | uint128 x => simp [Matchy.navigate]
    | boolean b => simp [Matchy.navigate]
    | float x => simp [Matchy.navigate]
  · intro p2 u hp2
    simp [Matchy.aget_value, hp2]

/-- **C7 witness**: on the entry `{"a": "b"}`, the path `["n","p"]` fails at
its first key with status 8 and no data, and the entry still resolves the
valid path `["a"]` to `"b"`. -/
theorem c7_navigate_error_contract_witness :
    Matchy.aget_value (.map [([97], .utf8String [98])]) [[110], [112]]
        = (Matchy.MMDB_INVALID_LOOKUP_PATH_ERROR, none) ∧
    Matchy.aget_value (.map [([97], .utf8String [98])]) [[97]]
        = (0, some (.utf8String [98])) := by
  have h := c7_navigate_error_contract (.map [([97], .utf8String [98])])
    (.map [([97], .utf8String [98])]) [] [110] [[112]] rfl
  refine ⟨?_, ?_⟩
  · have h1 := h.1 [([97], .utf8String [98])] rfl (by rfl)
    simpa using h1
  · exact h.2.2.2.2 [[97]] (.utf8String [98]) (by rfl)

/-! ## C4: result ordering and deduplication -/

/-- **C4**: for every database (pattern list) and every id array returned by
the core for an input text, the list `Paraglob::get_with_ids` returns is
strictly increasing in pattern id — hence free of duplicate ids and sorted
ascending. -/
theorem c4_results_sorted_and_deduped (patterns : List (List Char)) (ids : List Nat) :
    (Matchy.get_with_ids patterns ids).Pairwise (fun a b => a.1 < b.1) := by
  unfold Matchy.get_with_ids
  apply Matchy.pairwise_dedupAdjacent
  · haveI : IsTotal (Nat × List Char) (fun x y => x.1 ≤ y.1) :=
      ⟨fun a b => Nat.le_total a.1 b.1⟩
    haveI : IsTrans (Nat × List Char) (fun x y => x.1 ≤ y.1) :=
      ⟨fun _ _ _ h1 h2 => le_trans h1 h2⟩
    exact List.sorted_insertionSort _ _
  · intro x hx y hy h1
    have hx' := Matchy.lookup_of_mem_collectIdMatches _ ids x
      ((List.mem_insertionSort _).1 hx)
    have hy' := Matchy.lookup_of_mem_collectIdMatches _ ids y
      ((List.mem_insertionSort _).1 hy)
    rw [h1] at hx'
    have h2 : x.2 = y.2 := Option.some.inj (hx'.symm.trans hy')
    exact Prod.ext h1 h2

/-! ## C5: pattern-id invariant -/

/-- **C5**: the id assignment of `get_all_patterns_with_ids` is the
contiguous range `[0, N)`; the pattern at id `i` is the `i`-th entry of the
lexicographically sorted pattern list (a sorted permutation of the stored
patterns); and the assignment restored after sealing and reopening the file
is identical. -/
theorem c5_pattern_id_invariant (patterns : List (List Char)) :
    (Matchy.get_all_patterns_with_ids patterns).map Prod.fst
        = List.range patterns.length ∧
    (Matchy.get_all_patterns_with_ids patterns).map Prod.snd
        = Matchy.sealPatternList patterns ∧
    (Matchy.sealPatternList patterns).Perm patterns ∧
    (Matchy.sealPatternList patterns).Pairwise (fun a b => Matchy.strLe a b = true) ∧
    Matchy.assignmentAfterOpen (Matchy.sealPatternList patterns)
        = Matchy.get_all_patterns_with_ids patterns := by
  refine ⟨?_, by simp [Matchy.get_all_patterns_with_ids, Matchy.sealPatternList],
    List.perm_insertionSort _ _, ?_, rfl⟩
  · simp [Matchy.get_all_patterns_with_ids, List.length_insertionSort]
  · haveI : IsTotal (List Char) (fun a b => Matchy.strLe a b = true) :=
      ⟨Matchy.strLe_total⟩
    haveI : IsTrans (List Char) (fun a b => Matchy.strLe a b = true) :=
      ⟨Matchy.strLe_trans⟩
    exact List.sorted_insertionSort _ _

/-! ## C9: serialize_binary is unimplemented -/

/-- **C9**: in every lifecycle state — uncompiled, compiled in build mode, or
loaded in binary mode — `Paraglob::serialize_binary` throws a runtime error
and never returns a buffer; `serialize` merely delegates to it, and
`save_to_file_binary` is the one serialization path that can succeed. -/
theorem c9_serialize_binary_always_throws :
    (∀ s : Matchy.ParaglobState, ∃ msg, Matchy.serialize_binary s = .error msg) ∧
    (∀ s : Matchy.ParaglobState, (Matchy.serialize_binary s).isOk = false) ∧
    (∀ s : Matchy.ParaglobState, Matchy.serialize s = Matchy.serialize_binary s) ∧
    (∃ s : Matchy.ParaglobState, Matchy.save_to_file_binary s = true) := by
  refine ⟨?_, ?_, fun s => rfl, ⟨⟨true, true, true⟩, rfl⟩⟩
  · intro s
    unfold Matchy.serialize_binary
    split
    · exact ⟨_, rfl⟩
    · exact ⟨_, rfl⟩
  · intro s
    unfold Matchy.serialize_binary
    split <;> rfl

/-! ## C10: varargs path-glue equivalence and truncation -/

/-- **C10**: `MMDB_get_value` and `MMDB_vget_value` collect at most 32 path
components and return exactly `MMDB_aget_value` applied to that truncated
array; for paths of at most 32 keys all three functions agree, and
components beyond the 32nd are silently dropped. -/
theorem c10_varargs_glue {α : Type} (aget : List (List Char) → α)
    (args : List (List Char)) :
    Matchy.MMDB_get_value aget args = aget (args.take 32) ∧
    Matchy.MMDB_vget_value aget args = Matchy.MMDB_get_value aget args ∧
    (args.length ≤ 32 → Matchy.MMDB_get_value aget args = aget args) := by
  refine ⟨?_, rfl, ?_⟩
  · simp [Matchy.MMDB_get_value, Matchy.collectVarargs_eq_take, Matchy.MAX_PATH_DEPTH]
  · intro h
    simp [Matchy.MMDB_get_value, Matchy.collectVarargs_eq_take, Matchy.MAX_PATH_DEPTH,
      List.take_of_length_le h]

/-- **C10 witness**: a two-component path is both short enough to agree with
the array version and truncation-free. -/
theorem c10_varargs_glue_witness :
    (["country".toList, "iso_code".toList] : List (List Char)).length ≤ 32 ∧
    Matchy.MMDB_get_value List.length ["country".toList, "iso_code".toList] = 2 := by
  refine ⟨by decide, ?_⟩
  have h := (c10_varargs_glue List.length ["country".toList, "iso_code".toList]).2.2
    (by decide)
  simpa using h
